import Mathlib

/-!
Shallow embedding of the time-window grouping kernel
(`polars-time/src/groupby.rs`).

The kernel consumes an ascending slice of nanosecond timestamps and the
sequence of window intervals produced by the `Window` collaborator, and
returns the list of `(anchor, member-indices)` pairs.  The `Window`,
`Bounds` and `Duration` collaborators live outside the kernel; the kernel
only ever uses the interval stream through each interval's membership
predicate `is_member : i64 -> bool`, so an interval is embedded as a
function `Int → Bool` and the interval stream as a `List (Int → Bool)`.
Timestamps are `Int` (Rust `i64`; no arithmetic is performed on them by
the kernel, so no wrap-around modelling is needed) and indices are `Nat`
(Rust `usize`; the only index arithmetic is `+ 1` and `saturating_sub 1`,
which `Nat` addition and truncated subtraction match exactly, and a slice
of `i64` can hold fewer than `2^61` elements, so the cursor arithmetic
never overflows `usize`).  The values stored into a group and emitted in
the output, however, are narrowed by the source: `group.push(i as u32)`
truncates the `usize` scan index modulo `2^32`, and the emitted pairs have
type `(u32, Vec<u32>)`; every stored value is therefore modelled as
`i % u32Size`.
-/

/-- Number of values of Rust `u32`: `2 ^ 32`.  The `i as u32` cast in
`group.push(i as u32)` truncates the scan index modulo this constant. -/
def u32Size : Nat := 4294967296

/-- Loop body of `findStart`, made structurally recursive on an explicit
fuel argument so the kernel can evaluate it; `fuel = time.length - latest_start`
at every call (the `fuel = 0` case is then only reached when
`latest_start ≥ time.length`, where the Rust loop breaks on `None` and leaves
`latest_start` incremented once). -/
def findStartGo (bi : Int → Bool) (time : List Int) (latest_start : Nat) :
    Nat → Nat
  | 0 => latest_start + 1
  | fuel + 1 =>
    if h : latest_start < time.length then
      if bi (time.get ⟨latest_start, h⟩) then latest_start + 1
      else findStartGo bi time (latest_start + 1) fuel
    else latest_start + 1

/-- Embeds the first loop of `groupby` ("find starting point of window"):
starting from `latest_start`, repeatedly do `latest_start += 1` and stop as
soon as `time.get(latest_start - 1)` is out of range or is a member of the
interval `bi`; the returned value is `latest_start` as left by the loop
(before the `saturating_sub(1)` that follows it). -/
def findStart (bi : Int → Bool) (time : List Int) (latest_start : Nat) : Nat :=
  findStartGo bi time latest_start (time.length - latest_start)

/-- Loop body of `collect`, structurally recursive on fuel;
`fuel = time.length - i` at every call, so `fuel = 0` is only reached with
`i ≥ time.length`, where the Rust loop pushes `i` and breaks on the bounds
check. -/
def collectGo (bi : Int → Bool) (time : List Int) (i : Nat) : Nat → List Nat
  | 0 => [i % u32Size]
  | fuel + 1 =>
    if h : i < time.length then
      if bi (time.get ⟨i, h⟩) then i % u32Size :: collectGo bi time (i + 1) fuel
      else [i % u32Size]
    else [i % u32Size]

/-- Embeds the second loop of `groupby` ("find members of this window"):
`group.push(i as u32)` first — the cast truncates the index modulo `2^32` —
then break when `i >= time.len() || !bi.is_member(time[i])`, else `i += 1`
and continue.  Returns the collected `group`. -/
def collect (bi : Int → Bool) (time : List Int) (i : Nat) : List Nat :=
  collectGo bi time i (time.length - i)

/-- Embeds the body of `groupby`'s `for bi in ... { ... }` loop, with the
mutable `latest_start` cursor threaded explicitly.  Each iteration runs the
search loop, applies `latest_start.saturating_sub(1)` (truncated `Nat`
subtraction), collects the group, and pushes `(group[0], group)` unless the
group is empty. -/
def groupbyRun (time : List Int) (intervals : List (Int → Bool)) (latest_start : Nat) :
    List (Nat × List Nat) :=
  match intervals with
  | [] => []
  | bi :: rest =>
    match collect bi time (findStart bi time latest_start - 1) with
    | [] => groupbyRun time rest (findStart bi time latest_start - 1)
    | g0 :: gs =>
      (g0, g0 :: gs) :: groupbyRun time rest (findStart bi time latest_start - 1)

/-- Embeds `pub fn groupby(window: Window, time: &[i64]) -> GroupTuples`,
with the window abstracted to the interval stream it yields through
`get_overlapping_bounds_iter` (each interval reduced to its `is_member`
predicate) and `latest_start` initialised to `0`.  The
`Vec::with_capacity(window.estimate_overlapping_bounds(boundary))` call is a
pure allocation hint with no observable effect on the result and is not
modelled. -/
def groupby (intervals : List (Int → Bool)) (time : List Int) : List (Nat × List Nat) :=
  groupbyRun time intervals 0

/-- Instrumented variant of `collect` in which the unchecked slice index
`time[i]` of the Rust source is modelled as a fallible lookup: evaluating it
out of range yields `none` (the panic).  The surrounding control flow is the
Rust short-circuit `i >= time.len() || !bi.is_member(time[i])`, checked in
that order. -/
def collectCheckedGo (bi : Int → Bool) (time : List Int) (i : Nat) :
    Nat → Option (List Nat)
  | 0 => some [i % u32Size]
  | fuel + 1 =>
    if time.length ≤ i then some [i % u32Size]
    else
      match time.get? i with
      | none => none
      | some ts =>
        if bi ts then
          (collectCheckedGo bi time (i + 1) fuel).map (fun g => i % u32Size :: g)
        else some [i % u32Size]

/-- Fuel wrapper for `collectCheckedGo`; see `collectChecked`'s doc string
above it. -/
def collectChecked (bi : Int → Bool) (time : List Int) (i : Nat) : Option (List Nat) :=
  collectCheckedGo bi time i (time.length - i)

/-- Instrumented variant of `groupbyRun` in which both unchecked indexings of
the Rust source — `time[i]` inside the collection loop and `group[0]` when the
group is emitted — are fallible, `none` modelling a panic. -/
def groupbyRunChecked (time : List Int) (intervals : List (Int → Bool)) (latest_start : Nat) :
    Option (List (Nat × List Nat)) :=
  match intervals with
  | [] => some []
  | bi :: rest =>
    match collectChecked bi time (findStart bi time latest_start - 1) with
    | none => none
    | some group =>
      if group.isEmpty then groupbyRunChecked time rest (findStart bi time latest_start - 1)
      else
        match group.get? 0 with
        | none => none
        | some g0 =>
          (groupbyRunChecked time rest (findStart bi time latest_start - 1)).map
            (fun t => (g0, group) :: t)

/-- Instrumented variant of `groupby` (see `groupbyRunChecked`). -/
def groupbyChecked (intervals : List (Int → Bool)) (time : List Int) :
    Option (List (Nat × List Nat)) :=
  groupbyRunChecked time intervals 0

/-- Modelled from the spec: the `Window` collaborator (absent from the
kernel's source) produces intervals "closed at the window edges" according to
the spec's scenario; a closed interval `[lo, hi]` with membership
`lo ≤ t ∧ t ≤ hi`. -/
def closedMember (lo hi : Int) : Int → Bool :=
  fun t => decide (lo ≤ t ∧ t ≤ hi)

/-- Modelled from the spec: the same interval taken half-open, `[lo, hi)`,
with membership `lo ≤ t ∧ t < hi` — the inclusivity actually consistent with
the kernel's own unit test `test_group_tuples`. -/
def halfOpenMember (lo hi : Int) : Int → Bool :=
  fun t => decide (lo ≤ t ∧ t < hi)

/-- The timestamp sequence of `test_group_tuples`: seconds
0, 15, 30, 45, 60, 75, 90 of 2001-01-01T01:00 as nanoseconds since the epoch,
shifted here by the common offset (only differences matter to window
membership relative to the matching interval endpoints below): seconds
0, 15, 30, 45, 60, 75, 90, nanosecond-scaled. -/
def ts7 : List Int :=
  [0, 15000000000, 30000000000, 45000000000, 60000000000, 75000000000, 90000000000]

/-- Modelled from the spec: the three intervals of the scenario
(every = 30 s, period = 30 s, offset = 0 s over the bounds of `ts7`),
read with closed edges as the spec asserts: `[0,30]`, `[30,60]`, `[60,90]`
seconds. -/
def intervals3Closed : List (Int → Bool) :=
  [closedMember 0 30000000000,
   closedMember 30000000000 60000000000,
   closedMember 60000000000 90000000000]

/-- Modelled from the spec: the same three intervals taken half-open:
`[0,30)`, `[30,60)`, `[60,90)` seconds. -/
def intervals3HalfOpen : List (Int → Bool) :=
  [halfOpenMember 0 30000000000,
   halfOpenMember 30000000000 60000000000,
   halfOpenMember 60000000000 90000000000]

/-- A timestamp sequence of `2^32 + 1` elements — large enough to make the
`i as u32` truncation observable (a slice of that many `i64`s is 32 GiB,
well below `isize::MAX`): `2^32 - 1` zeros followed by the two timestamps
`5` and `7`, sitting at the underlying indices `2^32 - 1` and `2^32`. -/
def bigTime : List Int :=
  List.replicate (u32Size - 1) 0 ++ [5, 7]

/-- Two intervals over `bigTime`: the first matches only the timestamp `5`
(underlying index `2^32 - 1`), the second only `7` (underlying index
`2^32`), so their emitted groups expose the `u32` wrap of stored indices
and anchors. -/
def bigIntervals : List (Int → Bool) :=
  [fun t => decide (t = 5), fun t => decide (t = 7)]

/-! ### Unfolding equations for the fuelled loops -/

theorem findStart_eq (bi : Int → Bool) (time : List Int) (ls : Nat) :
    findStart bi time ls =
      if h : ls < time.length then
        if bi (time.get ⟨ls, h⟩) then ls + 1 else findStart bi time (ls + 1)
      else ls + 1 := by
  unfold findStart
  by_cases h : ls < time.length
  · have hf : time.length - ls = (time.length - (ls + 1)) + 1 := by omega
    rw [hf, dif_pos h]
    simp only [findStartGo, dif_pos h]
  · have hf : time.length - ls = 0 := by omega
    rw [hf, dif_neg h]
    simp only [findStartGo]

theorem collect_eq (bi : Int → Bool) (time : List Int) (i : Nat) :
    collect bi time i =
      if h : i < time.length then
        if bi (time.get ⟨i, h⟩) then i % u32Size :: collect bi time (i + 1)
        else [i % u32Size]
      else [i % u32Size] := by
  unfold collect
  by_cases h : i < time.length
  · have hf : time.length - i = (time.length - (i + 1)) + 1 := by omega
    rw [hf, dif_pos h]
    simp only [collectGo, dif_pos h]
  · have hf : time.length - i = 0 := by omega
    rw [hf, dif_neg h]
    simp only [collectGo]

/-! ### Properties of the collection loop -/

theorem collectGo_spec (bi : Int → Bool) (time : List Int) :
    ∀ (fuel i : Nat), time.length - i ≤ fuel →
      ∃ k, collectGo bi time i fuel =
          (List.range' i (k + 1)).map (fun j => j % u32Size) ∧
        (∀ j, i ≤ j → j < i + k → ∃ h : j < time.length, bi (time.get ⟨j, h⟩) = true) ∧
        (time.length ≤ i + k ∨ ∃ h : i + k < time.length, bi (time.get ⟨i + k, h⟩) = false) := by
  intro fuel
  induction fuel with
  | zero =>
    intro i hle
    refine ⟨0, by simp [collectGo, List.range'_one], ?_, Or.inl (by omega)⟩
    intro j hj1 hj2
    omega
  | succ fuel ih =>
    intro i hle
    by_cases h : i < time.length
    · by_cases hb : bi (time.get ⟨i, h⟩) = true
      · obtain ⟨k, he, hmem, hlast⟩ := ih (i + 1) (by omega)
        refine ⟨k + 1, ?_, ?_, ?_⟩
        · simp only [collectGo, dif_pos h, if_pos hb, he, List.range'_succ, List.map_cons]
        · intro j hj1 hj2
          by_cases hji : j = i
          · subst hji
            exact ⟨h, hb⟩
          · exact hmem j (by omega) (by omega)
        · have harith : i + (k + 1) = (i + 1) + k := by omega
          rw [harith]
          exact hlast
      · refine ⟨0, ?_, ?_, Or.inr ?_⟩
        · simp only [collectGo, dif_pos h, if_neg hb]
          simp [List.range'_one]
        · intro j hj1 hj2
          omega
        · simpa using ⟨h, by simpa using hb⟩
    · refine ⟨0, ?_, ?_, Or.inl (by omega)⟩
      · simp only [collectGo, dif_neg h]
        simp [List.range'_one]
      · intro j hj1 hj2
        omega

theorem collect_spec (bi : Int → Bool) (time : List Int) (i : Nat) :
    ∃ k, collect bi time i = (List.range' i (k + 1)).map (fun j => j % u32Size) ∧
      (∀ j, i ≤ j → j < i + k → ∃ h : j < time.length, bi (time.get ⟨j, h⟩) = true) ∧
      (time.length ≤ i + k ∨ ∃ h : i + k < time.length, bi (time.get ⟨i + k, h⟩) = false) :=
  collectGo_spec bi time (time.length - i) i (Nat.le_refl _)

theorem collect_head? (bi : Int → Bool) (time : List Int) (i : Nat) :
    (collect bi time i).head? = some (i % u32Size) := by
  rw [collect_eq]
  split
  · split <;> rfl
  · rfl

theorem collect_ne_nil (bi : Int → Bool) (time : List Int) (i : Nat) :
    collect bi time i ≠ [] := by
  intro hnil
  have h := collect_head? bi time i
  rw [hnil] at h
  exact Option.noConfusion h

theorem collect_at_length (bi : Int → Bool) (time : List Int) :
    collect bi time time.length = [time.length % u32Size] := by
  rw [collect_eq, dif_neg (by omega)]

theorem collectGo_all_true (bi : Int → Bool) (time : List Int)
    (hall : ∀ (j : Nat) (h : j < time.length), bi (time.get ⟨j, h⟩) = true) :
    ∀ (fuel i : Nat), time.length - i ≤ fuel → i ≤ time.length →
      collectGo bi time i fuel =
        (List.range' i (time.length - i + 1)).map (fun j => j % u32Size) := by
  intro fuel
  induction fuel with
  | zero =>
    intro i h1 h2
    have : time.length - i = 0 := by omega
    rw [this]
    simp [collectGo, List.range'_one]
  | succ fuel ih =>
    intro i h1 h2
    by_cases h : i < time.length
    · have harith : time.length - i + 1 = (time.length - (i + 1) + 1) + 1 := by omega
      rw [harith, List.range'_succ, List.map_cons]
      simp only [collectGo, dif_pos h, if_pos (hall i h)]
      rw [ih (i + 1) (by omega) (by omega)]
    · have : time.length - i = 0 := by omega
      rw [this]
      simp [collectGo, dif_neg h, List.range'_one]

theorem collect_all_true (bi : Int → Bool) (time : List Int)
    (hall : ∀ (j : Nat) (h : j < time.length), bi (time.get ⟨j, h⟩) = true) :
    collect bi time 0 =
      (List.range (time.length + 1)).map (fun j => j % u32Size) := by
  rw [collect, collectGo_all_true bi time hall _ 0 (by omega) (by omega)]
  rw [Nat.sub_zero, List.range_eq_range']

/-! ### Properties of the search loop -/

theorem findStartGo_ge (bi : Int → Bool) (time : List Int) :
    ∀ (fuel ls : Nat), ls + 1 ≤ findStartGo bi time ls fuel := by
  intro fuel
  induction fuel with
  | zero => intro ls; exact Nat.le_refl _
  | succ fuel ih =>
    intro ls
    simp only [findStartGo]
    split
    · split
      · exact Nat.le_refl _
      · exact Nat.le_trans (by omega) (ih (ls + 1))
    · exact Nat.le_refl _

theorem findStart_ge (bi : Int → Bool) (time : List Int) (ls : Nat) :
    ls + 1 ≤ findStart bi time ls :=
  findStartGo_ge bi time _ ls

theorem findStartGo_le (bi : Int → Bool) (time : List Int) :
    ∀ (fuel ls : Nat), ls ≤ time.length → findStartGo bi time ls fuel ≤ time.length + 1 := by
  intro fuel
  induction fuel with
  | zero => intro ls h; simp only [findStartGo]; omega
  | succ fuel ih =>
    intro ls h
    simp only [findStartGo]
    split
    · split
      · omega
      · exact ih (ls + 1) (by omega)
    · omega

theorem findStart_le (bi : Int → Bool) (time : List Int) (ls : Nat) (h : ls ≤ time.length) :
    findStart bi time ls ≤ time.length + 1 :=
  findStartGo_le bi time _ ls h

theorem findStartGo_all_false (bi : Int → Bool) (time : List Int)
    (hf : ∀ ts ∈ time, bi ts = false) :
    ∀ (fuel ls : Nat), time.length - ls ≤ fuel → ls ≤ time.length →
      findStartGo bi time ls fuel = time.length + 1 := by
  intro fuel
  induction fuel with
  | zero => intro ls h1 h2; simp only [findStartGo]; omega
  | succ fuel ih =>
    intro ls h1 h2
    simp only [findStartGo]
    by_cases h : ls < time.length
    · rw [dif_pos h]
      have hm : bi (time.get ⟨ls, h⟩) = false := hf _ (List.get_mem time ls h)
      have hneg : ¬bi (time.get ⟨ls, h⟩) = true := by rw [hm]; exact Bool.false_ne_true
      rw [if_neg hneg]
      exact ih (ls + 1) (by omega) (by omega)
    · rw [dif_neg h]
      omega

theorem findStart_all_false (bi : Int → Bool) (time : List Int) (ls : Nat)
    (h : ls ≤ time.length) (hf : ∀ ts ∈ time, bi ts = false) :
    findStart bi time ls = time.length + 1 :=
  findStartGo_all_false bi time hf _ ls (Nat.le_refl _) h

theorem findStart_member (bi : Int → Bool) (time : List Int) (ls : Nat)
    (h : ls < time.length) (hb : bi (time.get ⟨ls, h⟩) = true) :
    findStart bi time ls = ls + 1 := by
  rw [findStart_eq, dif_pos h, if_pos hb]

theorem findStart_eq_of_aux (bi : Int → Bool) (time : List Int) :
    ∀ (fuel ls j : Nat) (hj : j < time.length), j - ls ≤ fuel → ls ≤ j →
      bi (time.get ⟨j, hj⟩) = true →
      (∀ (m : Nat) (hm : m < time.length), ls ≤ m → m < j →
        bi (time.get ⟨m, hm⟩) = false) →
      findStart bi time ls = j + 1 := by
  intro fuel
  induction fuel with
  | zero =>
    intro ls j hj hfuel hlsj hmem _
    have hlj : ls = j := by omega
    subst hlj
    exact findStart_member bi time ls hj hmem
  | succ fuel ih =>
    intro ls j hj hfuel hlsj hmem hnot
    by_cases hlj : ls = j
    · subst hlj
      exact findStart_member bi time ls hj hmem
    · have hls : ls < time.length := by omega
      have hfalse : bi (time.get ⟨ls, hls⟩) = false :=
        hnot ls hls (Nat.le_refl _) (by omega)
      rw [findStart_eq, dif_pos hls,
        if_neg (by rw [hfalse]; exact Bool.false_ne_true)]
      exact ih (ls + 1) j hj (by omega) (by omega) hmem
        (fun m hm h1 h2 => hnot m hm (by omega) h2)

/-- Characterises the search loop: if `j` is the first member index at or
after `ls`, the loop leaves `latest_start = j + 1`. -/
theorem findStart_eq_of (bi : Int → Bool) (time : List Int) (ls j : Nat)
    (hj : j < time.length) (hlsj : ls ≤ j) (hmem : bi (time.get ⟨j, hj⟩) = true)
    (hnot : ∀ (m : Nat) (hm : m < time.length), ls ≤ m → m < j →
      bi (time.get ⟨m, hm⟩) = false) :
    findStart bi time ls = j + 1 :=
  findStart_eq_of_aux bi time (j - ls) ls j hj (Nat.le_refl _) hlsj hmem hnot

theorem range'_map_mod :
    ∀ (n s : Nat), s + n ≤ u32Size →
      (List.range' s n).map (fun j => j % u32Size) = List.range' s n := by
  intro n
  induction n with
  | zero => intro s _; rfl
  | succ n ih =>
    intro s hs
    rw [List.range'_succ, List.map_cons, Nat.mod_eq_of_lt (by omega), ih (s + 1) (by omega)]

/-! ### Properties of the main loop over intervals -/

theorem groupbyRun_cons (time : List Int) (bi : Int → Bool) (rest : List (Int → Bool))
    (ls : Nat) :
    groupbyRun time (bi :: rest) ls =
      ((findStart bi time ls - 1) % u32Size,
        collect bi time (findStart bi time ls - 1)) ::
        groupbyRun time rest (findStart bi time ls - 1) := by
  have hne := collect_ne_nil bi time (findStart bi time ls - 1)
  have hh := collect_head? bi time (findStart bi time ls - 1)
  cases hc : collect bi time (findStart bi time ls - 1) with
  | nil => exact absurd hc hne
  | cons a l =>
    rw [hc] at hh
    simp only [List.head?_cons, Option.some.injEq] at hh
    simp only [groupbyRun]
    rw [hc, ← hh]

theorem groupbyRun_length (time : List Int) :
    ∀ (intvs : List (Int → Bool)) (ls : Nat),
      (groupbyRun time intvs ls).length = intvs.length := by
  intro intvs
  induction intvs with
  | nil => intro ls; rfl
  | cons bi rest ih =>
    intro ls
    rw [groupbyRun_cons]
    simp [ih]

theorem groupbyRun_get?_spec (time : List Int) :
    ∀ (intvs : List (Int → Bool)) (ls k : Nat) (bi : Int → Bool),
      intvs[k]? = some bi →
      ∃ s, (groupbyRun time intvs ls)[k]? = some (s % u32Size, collect bi time s) ∧
        ls ≤ s ∧ (ls ≤ time.length → s ≤ time.length) ∧
        ((∀ ts ∈ time, bi ts = false) → ls ≤ time.length → s = time.length) := by
  intro intvs
  induction intvs with
  | nil => intro ls k bi hbi; simp at hbi
  | cons bi0 rest ih =>
    intro ls k bi hbi
    rw [groupbyRun_cons]
    match k with
    | 0 =>
      rw [List.getElem?_cons_zero, Option.some.injEq] at hbi
      subst hbi
      refine ⟨findStart bi0 time ls - 1, by rw [List.getElem?_cons_zero], ?_, ?_, ?_⟩
      · have := findStart_ge bi0 time ls
        omega
      · intro hlen
        have := findStart_le bi0 time ls hlen
        omega
      · intro hf hlen
        rw [findStart_all_false bi0 time ls hlen hf]
        omega
    | k + 1 =>
      rw [List.getElem?_cons_succ] at hbi
      obtain ⟨s, hget, hge, hle, hfalse⟩ := ih (findStart bi0 time ls - 1) k bi hbi
      have hge0 := findStart_ge bi0 time ls
      refine ⟨s, by rw [List.getElem?_cons_succ]; exact hget, by omega, ?_, ?_⟩
      · intro hlen
        have := findStart_le bi0 time ls hlen
        exact hle (by omega)
      · intro hf hlen
        have := findStart_le bi0 time ls hlen
        exact hfalse hf (by omega)

theorem groupbyRun_mem_spec (time : List Int) :
    ∀ (intvs : List (Int → Bool)) (ls : Nat) (p : Nat × List Nat),
      p ∈ groupbyRun time intvs ls →
      ∃ bi s, ls ≤ s ∧ (ls ≤ time.length → s ≤ time.length) ∧
        p = (s % u32Size, collect bi time s) := by
  intro intvs
  induction intvs with
  | nil => intro ls p hp; simp [groupbyRun] at hp
  | cons bi rest ih =>
    intro ls p hp
    rw [groupbyRun_cons] at hp
    have hge0 := findStart_ge bi time ls
    rcases List.mem_cons.mp hp with hp | hp
    · refine ⟨bi, findStart bi time ls - 1, by omega, ?_, hp⟩
      intro hlen
      have := findStart_le bi time ls hlen
      omega
    · obtain ⟨bi', s, hs, hsl, he⟩ := ih (findStart bi time ls - 1) p hp
      refine ⟨bi', s, by omega, ?_, he⟩
      intro hlen
      have := findStart_le bi time ls hlen
      exact hsl (by omega)

theorem groupbyRun_anchors (time : List Int) :
    ∀ (intvs : List (Int → Bool)) (ls : Nat),
      ∃ anchors : List Nat,
        (groupbyRun time intvs ls).map Prod.fst =
          anchors.map (fun s => s % u32Size) ∧
        List.Chain' (· ≤ ·) anchors ∧ (∀ a ∈ anchors, ls ≤ a) ∧
        (ls ≤ time.length → ∀ a ∈ anchors, a ≤ time.length) := by
  intro intvs
  induction intvs with
  | nil =>
    intro ls
    exact ⟨[], rfl, List.chain'_nil, by simp, fun _ => by simp⟩
  | cons bi rest ih =>
    intro ls
    obtain ⟨anchors, hmap, hchain, hge, hbound⟩ := ih (findStart bi time ls - 1)
    have hge0 := findStart_ge bi time ls
    refine ⟨(findStart bi time ls - 1) :: anchors, ?_, ?_, ?_, ?_⟩
    · rw [groupbyRun_cons, List.map_cons, List.map_cons, hmap]
    · rw [List.chain'_cons']
      exact ⟨fun y hy => hge y (List.mem_of_mem_head? hy), hchain⟩
    · intro a ha
      rcases List.mem_cons.mp ha with rfl | ha
      · omega
      · have := hge a ha
        omega
    · intro hlen a ha
      have hsle := findStart_le bi time ls hlen
      rcases List.mem_cons.mp ha with rfl | ha
      · omega
      · exact hbound (by omega) a ha

theorem groupbyRun_time_nil (intvs : List (Int → Bool)) :
    ∀ ls : Nat,
      groupbyRun [] intvs ls =
        intvs.map (fun _ => (ls % u32Size, [ls % u32Size])) := by
  induction intvs with
  | nil => intro ls; rfl
  | cons bi rest ih =>
    intro ls
    rw [groupbyRun_cons]
    have h1 : findStart bi [] ls = ls + 1 := by
      rw [findStart]
      simp only [List.length_nil, Nat.zero_sub]
      rfl
    have h2 : collect bi [] ls = [ls % u32Size] := by
      rw [collect]
      simp only [List.length_nil, Nat.zero_sub]
      rfl
    rw [h1]
    simp only [Nat.add_sub_cancel]
    rw [h2, List.map_cons, ih ls]

/-! ### The instrumented run never panics and agrees with the plain run -/

theorem collectCheckedGo_eq (bi : Int → Bool) (time : List Int) :
    ∀ (fuel i : Nat), collectCheckedGo bi time i fuel = some (collectGo bi time i fuel) := by
  intro fuel
  induction fuel with
  | zero => intro i; rfl
  | succ fuel ih =>
    intro i
    simp only [collectCheckedGo, collectGo]
    by_cases h : i < time.length
    · rw [if_neg (by omega), dif_pos h, List.get?_eq_get h]
      show (if bi (time.get ⟨i, h⟩) = true then
              Option.map (fun g => i % u32Size :: g) (collectCheckedGo bi time (i + 1) fuel)
            else some [i % u32Size]) =
          some (if bi (time.get ⟨i, h⟩) = true then
              i % u32Size :: collectGo bi time (i + 1) fuel
            else [i % u32Size])
      by_cases hb : bi (time.get ⟨i, h⟩) = true
      · rw [if_pos hb, if_pos hb, ih (i + 1), Option.map_some']
      · rw [if_neg hb, if_neg hb]
    · rw [if_pos (by omega), dif_neg h]

theorem collectChecked_eq (bi : Int → Bool) (time : List Int) (i : Nat) :
    collectChecked bi time i = some (collect bi time i) :=
  collectCheckedGo_eq bi time _ i

theorem groupbyRunChecked_eq (time : List Int) :
    ∀ (intvs : List (Int → Bool)) (ls : Nat),
      groupbyRunChecked time intvs ls = some (groupbyRun time intvs ls) := by
  intro intvs
  induction intvs with
  | nil => intro ls; rfl
  | cons bi rest ih =>
    intro ls
    cases hc : collect bi time (findStart bi time ls - 1) with
    | nil => exact absurd hc (collect_ne_nil bi time _)
    | cons a l =>
      simp only [groupbyRunChecked, groupbyRun]
      rw [collectChecked_eq, hc]
      simp only [List.isEmpty_cons, Bool.false_eq_true, if_false, List.get?_eq_getElem?,
        List.getElem?_cons_zero, ih (findStart bi time ls - 1), Option.map_some']


/-! ### Evaluation of `groupby` on the wrap-exposing input -/

theorem bigTime_length : bigTime.length = u32Size + 1 := by
  have hbig : bigTime = List.replicate (u32Size - 1) 0 ++ [5, 7] := rfl
  rw [hbig, List.length_append, List.length_replicate]
  have hval : u32Size = 4294967296 := rfl
  have h2 : ([5, 7] : List Int).length = 2 := rfl
  rw [h2]
  omega

theorem getElem_some_to_get {l : List Int} {j : Nat} {x : Int}
    (hj : j < l.length) (h : l[j]? = some x) : l.get ⟨j, hj⟩ = x := by
  have h2 := List.getElem?_eq_getElem hj
  rw [h] at h2
  rw [List.get_eq_getElem]
  exact ((Option.some.injEq _ _).mp h2).symm

theorem bigTime_get_small : ∀ (j : Nat) (hj : j < bigTime.length),
    j < u32Size - 1 → bigTime.get ⟨j, hj⟩ = 0 := by
  intro j hj hsmall
  refine getElem_some_to_get hj ?_
  have hbig : bigTime = List.replicate (u32Size - 1) 0 ++ [5, 7] := rfl
  rw [hbig]
  rw [List.getElem?_append_left (by rw [List.length_replicate]; exact hsmall)]
  rw [List.getElem?_replicate, if_pos hsmall]

theorem bigTime_get_five : ∀ (hj : u32Size - 1 < bigTime.length),
    bigTime.get ⟨u32Size - 1, hj⟩ = 5 := by
  intro hj
  refine getElem_some_to_get hj ?_
  have hbig : bigTime = List.replicate (u32Size - 1) 0 ++ [5, 7] := rfl
  rw [hbig]
  rw [List.getElem?_append_right (by rw [List.length_replicate])]
  rw [List.length_replicate, Nat.sub_self]
  rfl

theorem bigTime_get_seven : ∀ (hj : u32Size < bigTime.length),
    bigTime.get ⟨u32Size, hj⟩ = 7 := by
  intro hj
  have hval : u32Size = 4294967296 := rfl
  refine getElem_some_to_get hj ?_
  have hbig : bigTime = List.replicate (u32Size - 1) 0 ++ [5, 7] := rfl
  rw [hbig]
  rw [List.getElem?_append_right (by rw [List.length_replicate]; omega)]
  rw [List.length_replicate, show u32Size - (u32Size - 1) = 1 by omega]
  rfl

theorem big_findStart_first :
    findStart (fun t => decide (t = 5)) bigTime 0 = u32Size := by
  have hval : u32Size = 4294967296 := rfl
  have h := findStart_eq_of (fun t => decide (t = 5)) bigTime 0 (u32Size - 1)
    (by rw [bigTime_length]; omega) (Nat.zero_le _)
    (by rw [bigTime_get_five]; decide)
    (fun m hm h0 hlt => by rw [bigTime_get_small m hm hlt]; decide)
  rw [h]
  omega

theorem big_collect_first :
    collect (fun t => decide (t = 5)) bigTime (u32Size - 1) =
      [u32Size - 1, 0] := by
  have hval : u32Size = 4294967296 := rfl
  have hstep : collect (fun t => decide (t = 5)) bigTime u32Size =
      [u32Size % u32Size] := by
    rw [collect_eq, dif_pos (by rw [bigTime_length]; omega)]
    rw [bigTime_get_seven]
    rw [if_neg (by decide)]
  rw [collect_eq, dif_pos (by rw [bigTime_length]; omega)]
  rw [bigTime_get_five]
  rw [if_pos (by decide)]
  rw [show u32Size - 1 + 1 = u32Size by omega, hstep, Nat.mod_self,
    Nat.mod_eq_of_lt (by omega)]

theorem big_findStart_second :
    findStart (fun t => decide (t = 7)) bigTime (u32Size - 1) = u32Size + 1 := by
  have hval : u32Size = 4294967296 := rfl
  have h := findStart_eq_of (fun t => decide (t = 7)) bigTime (u32Size - 1) u32Size
    (by rw [bigTime_length]; omega) (by omega)
    (by rw [bigTime_get_seven]; decide)
    (fun m hm h0 hlt => by
      have hm' : m = u32Size - 1 := by omega
      subst hm'
      rw [bigTime_get_five]
      decide)
  exact h

theorem big_collect_second :
    collect (fun t => decide (t = 7)) bigTime u32Size = [0, 1] := by
  have hval : u32Size = 4294967296 := rfl
  have hstep : collect (fun t => decide (t = 7)) bigTime (u32Size + 1) =
      [(u32Size + 1) % u32Size] := by
    rw [collect_eq, dif_neg (by rw [bigTime_length]; omega)]
  rw [collect_eq, dif_pos (by rw [bigTime_length]; omega)]
  rw [bigTime_get_seven]
  rw [if_pos (by decide)]
  rw [hstep, Nat.mod_self, Nat.add_mod_left, Nat.mod_eq_of_lt (by omega)]

/-- Full evaluation of the kernel on `bigIntervals`/`bigTime`: the first
group's stored anchor and first entry are `2^32 - 1` and its second entry
wraps to `0`; the second group's stored anchor wraps to `0`. -/
theorem groupby_big_eval :
    groupby bigIntervals bigTime =
      [(u32Size - 1, [u32Size - 1, 0]), (0, [0, 1])] := by
  have hval : u32Size = 4294967296 := rfl
  have hbi : bigIntervals =
      [(fun t => decide (t = 5)), (fun t => decide (t = 7))] := rfl
  show groupbyRun bigTime bigIntervals 0 = _
  rw [hbi]
  rw [groupbyRun_cons, big_findStart_first]
  rw [groupbyRun_cons, big_findStart_second]
  rw [show u32Size + 1 - 1 = u32Size from rfl]
  rw [big_collect_first, big_collect_second]
  rw [Nat.mod_self, Nat.mod_eq_of_lt (show u32Size - 1 < u32Size by omega)]
  rfl

/-! ### The claims -/

/-- C1, counterexample: an interval whose membership predicate matches no
timestamp is not absent from the output.  On the one-timestamp input `[10]`
with a single never-matching interval, `groupby` emits the sentinel group
`(1, [1])` instead of emitting nothing. -/
theorem c1_counterexample :
    groupby [fun _ => false] [(10 : Int)] = [(1, [1])] ∧
    groupby [fun _ => false] [(10 : Int)] ≠ [] :=
  ⟨by decide, by decide⟩

/-- C1 (amended): an interval whose membership predicate matches no timestamp
contributes exactly one group — the singleton sentinel whose anchor and sole
entry are `len(timestamps)` narrowed to `u32` (`len % 2^32`, equal to `len`
itself whenever the slice has fewer than `2^32` elements) — rather than being
absent from the output; the true part of the claim stands: no emitted group
is empty. -/
theorem c1_theorem (time : List Int) (intvs : List (Int → Bool)) :
    (∀ (k : Nat) (bi : Int → Bool), intvs[k]? = some bi →
      (∀ ts ∈ time, bi ts = false) →
      (groupby intvs time)[k]? =
        some (time.length % u32Size, [time.length % u32Size])) ∧
    (∀ p ∈ groupby intvs time, p.2 ≠ []) := by
  constructor
  · intro k bi hbi hf
    obtain ⟨s, hget, _, _, hfalse⟩ := groupbyRun_get?_spec time intvs 0 k bi hbi
    have hs : s = time.length := hfalse hf (Nat.zero_le _)
    subst hs
    rw [collect_at_length] at hget
    simpa [groupby] using hget
  · intro p hp
    obtain ⟨bi, s, _, _, he⟩ :=
      groupbyRun_mem_spec time intvs 0 p (by simpa [groupby] using hp)
    rw [he]
    exact collect_ne_nil bi time s

/-- Witness for `c1_theorem`: both hypotheses discharged at the concrete
input of `c1_counterexample`. -/
theorem c1_witness :
    (groupby [fun _ => false] [(10 : Int)])[0]? = some (1, [1]) ∧
    ((1, [1]) : Nat × List Nat).2 ≠ [] := by
  constructor
  · have h := (c1_theorem [(10 : Int)] [fun _ => false]).1 0 (fun _ => false) rfl
      (by decide)
    simpa [u32Size] using h
  · exact (c1_theorem [(10 : Int)] [fun _ => false]).2 (1, [1]) (by decide)

/-- C2, counterexample: the emitted group `[0, 1]` for the interval
`t < 50` over timestamps `[0, 100]` contains index `1`, which is neither the
trailing sentinel `len(timestamps) = 2` nor an index satisfying the interval's
membership predicate (`100 < 50` is false). -/
theorem c2_counterexample :
    ∃ p ∈ groupby [fun t => decide (t < 50)] [(0 : Int), 100],
      ∃ idx ∈ p.2, idx ≠ ([(0 : Int), 100]).length ∧
        ∃ ts, ([(0 : Int), 100])[idx]? = some ts ∧
          (fun t : Int => decide (t < 50)) ts = false :=
  ⟨(0, [0, 1]), by decide, 1, by decide, by decide, 100, by decide, by decide⟩

/-- C2 (amended): every entry of an emitted group's member list except the
last one is the `u32` narrowing (`% 2^32`, the identity below `2^32`
entries) of an in-range timestamp index satisfying the corresponding
interval's membership predicate; the last entry is the narrowing of the
index at which the collection scan stopped, and that stopping index is
always part of the group whether or not it satisfies membership: it either
equals `len(timestamps)` or is a non-member index below `len(timestamps)`. -/
theorem c2_theorem (time : List Int) (intvs : List (Int → Bool)) (k : Nat)
    (bi : Int → Bool) (hbi : intvs[k]? = some bi) (p : Nat × List Nat)
    (hp : (groupby intvs time)[k]? = some p) :
    (∀ idx ∈ p.2.dropLast, ∃ j, idx = j % u32Size ∧
      ∃ h : j < time.length, bi (time.get ⟨j, h⟩) = true) ∧
    ∃ l, p.2.getLast? = some l ∧ ∃ j, l = j % u32Size ∧
      (j = time.length ∨ ∃ h : j < time.length, bi (time.get ⟨j, h⟩) = false) := by
  obtain ⟨s, hget, _, hsl, _⟩ := groupbyRun_get?_spec time intvs 0 k bi hbi
  simp only [groupby] at hp
  rw [hget, Option.some.injEq] at hp
  subst hp
  obtain ⟨kk, hcoll, hmem, hlast⟩ := collect_spec bi time s
  have hs_le : s ≤ time.length := hsl (Nat.zero_le _)
  have hkk : s + kk ≤ time.length := by
    by_cases h0 : kk = 0
    · omega
    · obtain ⟨hlt, _⟩ := hmem (s + kk - 1) (by omega) (by omega)
      omega
  have hconcat : collect bi time s =
      (List.range' s kk).map (fun j => j % u32Size) ++ [(s + kk) % u32Size] := by
    rw [hcoll, List.range'_concat, List.map_append]
    simp
  constructor
  · intro idx hidx
    rw [hconcat, List.dropLast_concat] at hidx
    obtain ⟨j0, hj0, he0⟩ := List.mem_map.mp hidx
    obtain ⟨m, hm, he1⟩ := List.mem_range'.mp hj0
    subst he1
    exact ⟨s + 1 * m, he0.symm, hmem (s + 1 * m) (by omega) (by omega)⟩
  · refine ⟨(s + kk) % u32Size, ?_, s + kk, rfl, ?_⟩
    · show (collect bi time s).getLast? = _
      rw [hconcat, List.getLast?_concat]
    · rcases hlast with h | h
      · exact Or.inl (by omega)
      · exact Or.inr h

/-- Witness for `c2_theorem` at the input of `c2_counterexample`
(interval index 0, emitted pair `(0, [0, 1])`). -/
theorem c2_witness :
    (∀ idx ∈ ([0, 1] : List Nat).dropLast, ∃ j, idx = j % u32Size ∧
      ∃ h : j < ([(0 : Int), 100]).length,
        (fun t : Int => decide (t < 50)) (([(0 : Int), 100]).get ⟨j, h⟩) = true) ∧
    ∃ l, ([0, 1] : List Nat).getLast? = some l ∧ ∃ j, l = j % u32Size ∧
      (j = ([(0 : Int), 100]).length ∨
        ∃ h : j < ([(0 : Int), 100]).length,
          (fun t : Int => decide (t < 50)) (([(0 : Int), 100]).get ⟨j, h⟩) = false) :=
  c2_theorem [(0 : Int), 100] [fun t => decide (t < 50)] 0 _ rfl (0, [0, 1]) (by decide)

/-- C3, counterexample: with the three scenario intervals read with closed
edges (`[0,30]`, `[30,60]`, `[60,90]` seconds, nanosecond-scaled) as the claim
states, `groupby` on the seven scenario timestamps returns the member lists
`[0,1,2,3]`, `[2,3,4,5]`, `[4,5,6,7]` — not the claimed `[0,1,2]`, `[2,3,4]`,
`[4,5,6]`. -/
theorem c3_counterexample :
    groupby intervals3Closed ts7 =
      [(0, [0, 1, 2, 3]), (2, [2, 3, 4, 5]), (4, [4, 5, 6, 7])] ∧
    groupby intervals3Closed ts7 ≠
      [(0, [0, 1, 2]), (2, [2, 3, 4]), (4, [4, 5, 6])] :=
  ⟨by decide, by decide⟩

/-- C3 (amended): with the three scenario intervals taken half-open
(`[0,30)`, `[30,60)`, `[60,90)` seconds), `groupby` on the seven scenario
timestamps returns exactly the groups `(0,[0,1,2])`, `(2,[2,3,4])`,
`(4,[4,5,6])`, i.e. the member lists asserted by the in-repo test
`test_group_tuples`; the boundary indices 2 and 4 shared by adjacent groups
are each group's stopping index (appended by the collection loop before its
membership check), not evidence of closed upper window edges. -/
theorem c3_theorem :
    groupby intervals3HalfOpen ts7 =
      [(0, [0, 1, 2]), (2, [2, 3, 4]), (4, [4, 5, 6])] ∧
    (groupby intervals3HalfOpen ts7).map Prod.snd =
      [[0, 1, 2], [2, 3, 4], [4, 5, 6]] :=
  ⟨by decide, by decide⟩

/-- C4, counterexample: the anchors stored in the output are the `u32`
narrowings of the underlying anchor indices.  On `bigTime` (`2^32 + 1`
timestamps) with `bigIntervals`, the first emitted group is anchored at the
underlying index `2^32 - 1` (stored as `4294967295`) and the second at
`2^32` (stored, wrapped, as `0`), so the stored anchor sequence
`[4294967295, 0]` decreases. -/
theorem c4_counterexample :
    ¬ List.Chain' (· ≤ ·) ((groupby bigIntervals bigTime).map Prod.fst) := by
  have hval : u32Size = 4294967296 := rfl
  rw [groupby_big_eval]
  simp only [List.map_cons, List.map_nil]
  rw [List.chain'_pair]
  omega

/-- C4 (amended): the underlying anchor positions of the emitted groups are
non-decreasing for every input — the output anchors are exactly their `u32`
narrowings (`% 2^32`) — and therefore the stored anchors themselves are
non-decreasing whenever the timestamp slice has fewer than `2^32` elements;
with `2^32` or more timestamps the narrowing can make a stored anchor wrap
below its predecessor. -/
theorem c4_theorem (time : List Int) (intvs : List (Int → Bool)) :
    (time.length < u32Size →
      List.Chain' (· ≤ ·) ((groupby intvs time).map Prod.fst)) ∧
    ∃ anchors : List Nat,
      (groupby intvs time).map Prod.fst = anchors.map (fun s => s % u32Size) ∧
      List.Chain' (· ≤ ·) anchors := by
  obtain ⟨anchors, hmap, hchain, _, hbound⟩ := groupbyRun_anchors time intvs 0
  have hmap' : (groupby intvs time).map Prod.fst =
      anchors.map (fun s => s % u32Size) := by
    simpa [groupby] using hmap
  constructor
  · intro hlen
    rw [hmap']
    have hcollapse : anchors.map (fun s => s % u32Size) = anchors := by
      rw [List.map_congr_left
        (fun a ha => Nat.mod_eq_of_lt
          (lt_of_le_of_lt (hbound (Nat.zero_le _) a ha) hlen))]
      exact List.map_id anchors
    rw [hcollapse]
    exact hchain
  · exact ⟨anchors, hmap', hchain⟩

/-- Witness for `c4_theorem`: the no-wrap hypothesis discharged on the
seven-timestamp scenario input. -/
theorem c4_witness :
    List.Chain' (· ≤ ·) ((groupby intervals3HalfOpen ts7).map Prod.fst) :=
  (c4_theorem ts7 intervals3HalfOpen).1 (by decide)

/-- C5, counterexample: an empty timestamp sequence together with a nonempty
interval sequence does not yield an empty output: each interval emits the
sentinel group `(0, [0])`. -/
theorem c5_counterexample :
    groupby [fun _ => true] ([] : List Int) = [(0, [0])] ∧
    groupby [fun _ => true] ([] : List Int) ≠ [] :=
  ⟨by decide, by decide⟩

/-- C5 (amended): an empty interval sequence yields an empty output, but an
empty timestamp sequence does not (unless the interval sequence is also
empty): with no timestamps, every interval emits the sentinel group
`(0, [0])`, so the output is one such group per interval. -/
theorem c5_theorem (time : List Int) (intvs : List (Int → Bool)) :
    groupby [] time = [] ∧
    groupby intvs ([] : List Int) = intvs.map (fun _ => (0, [0])) :=
  ⟨rfl, by simpa [groupby, u32Size] using groupbyRun_time_nil intvs 0⟩

/-- C6, counterexample: for the single timestamp `0` and the single interval
with membership `t = 0` (which contains the timestamp), `groupby` returns
`[(0, [0, 1])]`, not the claimed `[(0, [0])]`. -/
theorem c6_counterexample :
    groupby [fun t => decide (t = 0)] [(0 : Int)] = [(0, [0, 1])] ∧
    groupby [fun t => decide (t = 0)] [(0 : Int)] ≠ [(0, [0])] :=
  ⟨by decide, by decide⟩

/-- C6 (amended): for a one-element timestamp sequence and a single interval
whose membership predicate holds for that timestamp, `groupby` returns
exactly one group, whose member list is `[0, 1]`: index 0 followed by the
trailing sentinel `1 = len(timestamps)`. -/
theorem c6_theorem (t : Int) (bi : Int → Bool) (hb : bi t = true) :
    groupby [bi] [t] = [(0, [0, 1])] := by
  have h0 : (0 : Nat) < ([t] : List Int).length := by simp
  have hget : ([t] : List Int).get ⟨0, h0⟩ = t := rfl
  have hfs : findStart bi [t] 0 = 1 :=
    findStart_member bi [t] 0 h0 (by rw [hget, hb])
  have hc1 : collect bi [t] 1 = [1] := by
    rw [collect_eq, dif_neg (by simp)]
    norm_num [u32Size]
  have hc0 : collect bi [t] 0 = [0, 1] := by
    rw [collect_eq, dif_pos h0, hget, if_pos hb]
    rw [show (0 : Nat) + 1 = 1 from rfl, hc1]
    norm_num [u32Size]
  simp only [groupby]
  rw [groupbyRun_cons, hfs]
  norm_num [hc0]
  rfl

/-- Witness for `c6_theorem` at the timestamp `100` and the interval with
membership `t = 100`. -/
theorem c6_witness :
    groupby [fun t => decide (t = 100)] [(100 : Int)] = [(0, [0, 1])] :=
  c6_theorem 100 (fun t => decide (t = 100)) (by decide)

/-- C7 (confirmed): if the collection scan reaches the end of the timestamp
sequence, the one-past-the-end index `len(timestamps)` is appended to the
group before the bounds check: for any interval whose membership holds for
every timestamp of a slice shorter than `2^32` (where the `u32` narrowing of
each stored entry is the identity), the single emitted group is
`range (len + 1) = [0, ..., len]`, whose last element equals
`len(timestamps)`. -/
theorem c7_theorem (time : List Int) (bi : Int → Bool)
    (hall : ∀ ts ∈ time, bi ts = true) (hlen : time.length < u32Size) :
    groupby [bi] time = [(0, List.range (time.length + 1))] ∧
    (List.range (time.length + 1)).getLast? = some time.length := by
  have hall' : ∀ (j : Nat) (h : j < time.length), bi (time.get ⟨j, h⟩) = true :=
    fun j h => hall _ (List.get_mem time j h)
  constructor
  · have hfs : findStart bi time 0 = 1 := by
      cases time with
      | nil => rfl
      | cons t ts => exact findStart_member bi (t :: ts) 0 (by simp) (hall' 0 (by simp))
    have hc : collect bi time 0 = List.range (time.length + 1) := by
      rw [collect_all_true bi time hall', List.range_eq_range',
        range'_map_mod (time.length + 1) 0 (by omega)]
    simp only [groupby]
    rw [groupbyRun_cons, hfs]
    norm_num [hc]
    rfl
  · rw [List.range_succ, List.getLast?_concat]

/-- Witness for `c7_theorem` on the two timestamps `[0, 5]` with an
always-true membership predicate. -/
theorem c7_witness :
    groupby [fun _ => true] [(0 : Int), 5] = [(0, List.range 3)] ∧
    (List.range 3).getLast? = some 2 :=
  c7_theorem [(0 : Int), 5] (fun _ => true) (by decide) (by decide)

/-- C8, counterexample: on `bigTime`/`bigIntervals` the first emitted group
stores the member list `[4294967295, 0]` — its entries are `u32` narrowings
of the underlying indices `2^32 - 1` and `2^32` — which is not strictly
increasing, and its anchor `4294967295` is not its smallest entry. -/
theorem c8_counterexample :
    ∃ p ∈ groupby bigIntervals bigTime,
      (∃ x ∈ p.2, x < p.1) ∧ ¬ List.Chain' (· < ·) p.2 := by
  have hval : u32Size = 4294967296 := rfl
  refine ⟨(u32Size - 1, [u32Size - 1, 0]), ?_, ⟨0, by simp, by omega⟩, ?_⟩
  · rw [groupby_big_eval]
    exact List.mem_cons_self _ _
  · rw [List.chain'_pair]
    omega

/-- C8 (amended): for every input with fewer than `2^32` timestamps (so that
the `u32` narrowing of stored entries is the identity), every emitted group's
member list is non-empty, starts at the group's anchor (the first pair
component), and its `j`-th entry is `anchor + j` — an ordered run of
consecutive, strictly increasing indices whose first element is also its
smallest; with `2^32` or more timestamps a group's stored entries can wrap
and violate this. -/
theorem c8_theorem (time : List Int) (intvs : List (Int → Bool))
    (hlen : time.length < u32Size) (p : Nat × List Nat)
    (hp : p ∈ groupby intvs time) :
    p.2 ≠ [] ∧ p.2.head? = some p.1 ∧
      ∀ j, j < p.2.length → p.2[j]? = some (p.1 + j) := by
  obtain ⟨bi, s, _, hsl, he⟩ :=
    groupbyRun_mem_spec time intvs 0 p (by simpa [groupby] using hp)
  have hs_le : s ≤ time.length := hsl (Nat.zero_le _)
  have hsmod : s % u32Size = s := Nat.mod_eq_of_lt (by omega)
  rw [hsmod] at he
  subst he
  obtain ⟨kk, hcoll, hmem, _⟩ := collect_spec bi time s
  have hkk : s + kk ≤ time.length := by
    by_cases h0 : kk = 0
    · omega
    · obtain ⟨hlt, _⟩ := hmem (s + kk - 1) (by omega) (by omega)
      omega
  have hcoll' : collect bi time s = List.range' s (kk + 1) := by
    rw [hcoll, range'_map_mod (kk + 1) s (by omega)]
  refine ⟨collect_ne_nil bi time s, ?_, ?_⟩
  · show (collect bi time s).head? = some s
    rw [collect_head?, hsmod]
  · intro j hj
    show (collect bi time s)[j]? = some (s + j)
    rw [hcoll'] at hj ⊢
    rw [List.length_range'] at hj
    rw [List.getElem?_range' s 1 hj]
    norm_num

/-- Witness for `c8_theorem` at the group `(0, [0, 1])` emitted by
`groupby [fun _ => true] [0]`. -/
theorem c8_witness :
    ([0, 1] : List Nat) ≠ [] ∧ ([0, 1] : List Nat).head? = some 0 ∧
      ∀ j, j < ([0, 1] : List Nat).length → ([0, 1] : List Nat)[j]? = some (0 + j) :=
  c8_theorem [(0 : Int)] [fun _ => true] (by decide) (0, [0, 1]) (by decide)

/-- C9 (confirmed): for every timestamp slice and every interval sequence —
sorted or not — the instrumented run, in which the unchecked indexings
`time[i]` and `group[0]` of the source are fallible and `none` models a
panic, never returns `none` and agrees with the plain semantics: `groupby`
completes without panic (the `as u32` casts truncate and never panic, and
the `usize` cursor arithmetic cannot overflow for any slice of `i64`s). -/
theorem c9_theorem (time : List Int) (intvs : List (Int → Bool)) :
    groupbyChecked intvs time = some (groupby intvs time) := by
  simpa [groupbyChecked, groupby] using groupbyRunChecked_eq time intvs 0

/-- C10 (confirmed): every interval yields exactly one emitted group — the
output length always equals the number of intervals iterated — and, since the
collection loop pushes an index before any bound or membership check, no
emitted group is empty (the final emptiness guard never suppresses an
emission). -/
theorem c10_theorem (time : List Int) (intvs : List (Int → Bool)) :
    (groupby intvs time).length = intvs.length ∧
    ∀ p ∈ groupby intvs time, p.2 ≠ [] := by
  constructor
  · simpa [groupby] using groupbyRun_length time intvs 0
  · intro p hp
    obtain ⟨bi, s, _, _, he⟩ :=
      groupbyRun_mem_spec time intvs 0 p (by simpa [groupby] using hp)
    rw [he]
    exact collect_ne_nil bi time s

/-- Witness for `c10_theorem` on one matching and one non-matching
interval over the single timestamp `7`. -/
theorem c10_witness :
    (groupby [fun _ => true, fun _ => false] [(7 : Int)]).length = 2 ∧
    ((0, [0, 1]) : Nat × List Nat).2 ≠ [] :=
  ⟨(c10_theorem [(7 : Int)] [fun _ => true, fun _ => false]).1,
   (c10_theorem [(7 : Int)] [fun _ => true, fun _ => false]).2 (0, [0, 1]) (by decide)⟩
